import Mathlib

/-!
# Verification of the msrcapi content indexing and retrieval engine

Shallow embedding of the core services of the repository:
`app/services/cache.py` (tiered in-memory cache), `app/services/file_service.py`
(file content service and file tree builder), `app/services/search_service.py`
(paginated substring search) and the tree rows of `app/services/database.py`.

Modelling conventions:
* Python wall-clock times (`time.time()`) and TTLs are modelled as `Int`.
  Python truthiness of numbers (`if ttl`, `entry.expires_at and ...`) is
  modelled explicitly: the number `0` is falsy.
* Python `str` values used as cache payloads are modelled as Lean `String`;
  file contents handled character-wise by the search engine are modelled as
  `List Char` (Python strings are sequences of code points).
* `async` plays no semantic role (each service call runs start to finish
  against the shared state); calls are modelled as pure state transformers.
* Fallible operations return `Option`; a Python exception that would escape a
  function is modelled with `Except Unit`.
-/

namespace Msrc

/-! ## Data model (`app/models/schemas.py`) -/

/-- Model of `FileNode` of `schemas.py`: one pydantic class for both files and
directories, with `size` and `children` optional.  (That files carry no
children and directories always carry a children list is a property of the
tree builder, proved below, not of this type.) -/
inductive FileNode where
  | mk (name : String) (path : String) (type : String)
      (size : Option Nat) (children : Option (List FileNode))

def FileNode.name : FileNode → String
  | .mk n _ _ _ _ => n

def FileNode.path : FileNode → String
  | .mk _ p _ _ _ => p

def FileNode.type : FileNode → String
  | .mk _ _ t _ _ => t

def FileNode.size : FileNode → Option Nat
  | .mk _ _ _ s _ => s

def FileNode.children : FileNode → Option (List FileNode)
  | .mk _ _ _ _ c => c

/-! ## Cache service (`app/services/cache.py`) -/

/-- The payloads this core stores in the cache: raw file text (`set_str`)
and JSON-shaped tree documents (`set_json`).  A tree document is identified
with the `FileNode` it deserializes to (`FileNode(**d)` and `model_dump()`
are mutually inverse). -/
inductive CVal where
  | str (s : String)
  | tree (t : FileNode)

/-- Model of `CacheEntry` of `cache.py`: payload plus optional absolute expiry time. -/
structure CacheEntry where
  value : CVal
  expiresAt : Option Int

/-- The mutable state of `CacheService`: the backing dict and the hit/miss
counters. -/
structure CacheState where
  store : List (String × CacheEntry)
  hits : Nat
  misses : Nat

/-- Dict lookup (first binding wins; `cacheSet` prepends, so the most
recent write is found first, matching dict overwrite semantics). -/
def lookupStore (store : List (String × CacheEntry)) (k : String) : Option CacheEntry :=
  match store with
  | [] => none
  | (k', e) :: rest => if k' = k then some e else lookupStore rest k

/-- Model of `entry.expires_at and entry.expires_at < now` — Python truthiness makes a
stored expiry of exactly `0` falsy, so such an entry is never purged. -/
def entryExpired (now : Int) (e : CacheEntry) : Bool :=
  match e.expiresAt with
  | none => false
  | some x => x ≠ 0 && x < now

/-- Model of `CacheService._purge_expired`: drop every entry the guard classifies as
expired, scanning the whole store. -/
def purgeStore (now : Int) (store : List (String × CacheEntry)) :
    List (String × CacheEntry) :=
  store.filter (fun kv => !entryExpired now kv.2)

/-- Model of `CacheService.get`: lazy purge, then dict lookup; a found entry counts a
hit and returns its value, otherwise a miss. -/
def cacheGet (now : Int) (st : CacheState) (k : String) : Option CVal × CacheState :=
  let store := purgeStore now st.store
  match lookupStore store k with
  | some e => (some e.value, ⟨store, st.hits + 1, st.misses⟩)
  | none => (none, ⟨store, st.hits, st.misses + 1⟩)

/-- Model of `CacheService.get_str`: a `get` whose value is returned only when it is a
string (`isinstance(value, str)`). -/
def cacheGetStr (now : Int) (st : CacheState) (k : String) : Option String × CacheState :=
  match cacheGet now st k with
  | (some (.str s), st') => (some s, st')
  | (_, st') => (none, st')

/-- Model of `CacheService.exists`: lazy purge, then key membership. -/
def cacheExists (now : Int) (st : CacheState) (k : String) : Bool × CacheState :=
  let store := purgeStore now st.store
  ((lookupStore store k).isSome, ⟨store, st.hits, st.misses⟩)

/-- Model of `expires_at = time.time() + ttl if ttl else None`: a missing or zero
(falsy) TTL stores no expiry. -/
def expiryOf (now : Int) (ttl : Option Int) : Option Int :=
  match ttl with
  | none => none
  | some t => if t = 0 then none else some (now + t)

/-- Model of `CacheService.set`: dict assignment — the key is bound to the new entry
and any previous binding for it is gone (modelled by prepending the new
binding and dropping old ones, keeping keys unique as in a dict). -/
def cacheSet (now : Int) (st : CacheState) (k : String) (v : CVal) (ttl : Option Int) :
    CacheState :=
  { st with store := (k, ⟨v, expiryOf now ttl⟩) :: st.store.filter (fun kv => decide (kv.1 ≠ k)) }

/-- Model of `CacheService.set_str`. -/
def cacheSetStr (now : Int) (st : CacheState) (k : String) (s : String) (ttl : Option Int) :
    CacheState :=
  cacheSet now st k (.str s) ttl

/-- Model of `CacheService.get_hit_rate`: `hits / (hits + misses)`, `0.0` when no
lookups happened.  The Python float quotient is modelled exactly in `ℚ`. -/
def hitRate (st : CacheState) : ℚ :=
  if st.hits + st.misses > 0 then (st.hits : ℚ) / ((st.hits : ℚ) + (st.misses : ℚ)) else 0

/-- Model of `CacheService.cache_key_file`. -/
def cacheKeyFile (version path : String) : String :=
  "file:" ++ version ++ ":" ++ path

/-- Model of `CacheService.cache_key_tree`. -/
def cacheKeyTree (version : String) : String :=
  "tree:" ++ version

/-- The empty cache, as produced by `CacheService.__init__`. -/
def emptyCache : CacheState := ⟨[], 0, 0⟩

/-! ## File tree builder (`FileService._build_tree`)

The filesystem below a version's `src` root is modelled as a tree of
entries.  The order of a directory's `entries` list models the arbitrary
enumeration order of `Path.iterdir()`; `readable = false` models a directory
whose enumeration raises `PermissionError` (the walk then records no
children for it). -/

inductive FSEntry where
  | file (name : String) (size : Nat)
  | dir (name : String) (entries : List FSEntry) (readable : Bool)

def FSEntry.name : FSEntry → String
  | .file n _ => n
  | .dir n _ _ => n

/-- Model of `x.is_dir()` for a directory entry. -/
def FSEntry.isDir : FSEntry → Bool
  | .file _ _ => false
  | .dir _ _ _ => true

/-- The Python sort key `(not x.is_dir(), x.name)`. -/
def entryKey (e : FSEntry) : Bool × String :=
  (!e.isDir, e.name)

/-- Lexicographic comparison of sort keys, with `False < True` on the first
component, exactly as Python compares `(bool, str)` tuples. -/
def keyLE (x y : Bool × String) : Prop :=
  (x.1 = false ∧ y.1 = true) ∨ (x.1 = y.1 ∧ x.2 ≤ y.2)

instance : DecidableRel keyLE := fun x y => by
  unfold keyLE; infer_instance

/-- The entry ordering used by the walk. -/
def entryLE (a b : FSEntry) : Prop :=
  keyLE (entryKey a) (entryKey b)

instance : DecidableRel entryLE := fun a b => by
  unfold entryLE; infer_instance

theorem keyLE_total (x y : Bool × String) : keyLE x y ∨ keyLE y x := by
  rcases x with ⟨bx, sx⟩; rcases y with ⟨by', sy⟩
  rcases le_total sx sy with h | h <;> cases bx <;> cases by' <;>
    simp [keyLE, h]

theorem keyLE_trans {x y z : Bool × String} (h₁ : keyLE x y) (h₂ : keyLE y z) :
    keyLE x z := by
  rcases x with ⟨bx, sx⟩; rcases y with ⟨by', sy⟩; rcases z with ⟨bz, sz⟩
  rcases h₁ with ⟨h, h'⟩ | ⟨h, h'⟩ <;> rcases h₂ with ⟨g, g'⟩ | ⟨g, g'⟩ <;>
    simp_all [keyLE] <;> exact le_trans h' g'

theorem keyLE_antisymm {x y : Bool × String} (h₁ : keyLE x y) (h₂ : keyLE y x) :
    x = y := by
  rcases x with ⟨bx, sx⟩; rcases y with ⟨by', sy⟩
  simp only [keyLE] at h₁ h₂
  rcases h₁ with ⟨h, h'⟩ | ⟨h, h'⟩ <;> rcases h₂ with ⟨g, g'⟩ | ⟨g, g'⟩
  · simp [h'] at g
  · simp [h, h'] at g
  · simp [g, g'] at h
  · have hs : sx = sy := le_antisymm h' g'
    simp [h, hs]

instance : IsTotal FSEntry entryLE := ⟨fun a b => keyLE_total _ _⟩

instance : IsTrans FSEntry entryLE := ⟨fun _ _ _ => keyLE_trans⟩

/-- Model of `sorted(current.iterdir(), key=lambda x: (not x.is_dir(), x.name))`.
Python's `sorted` is a stable sort by the key; the output of a stable sort is
uniquely determined by the key order and the input order, so the stable
insertion sort is an extensionally faithful model of it. -/
def sortEntries (l : List FSEntry) : List FSEntry :=
  l.insertionSort entryLE

/-- Model of `str(child.relative_to(root))`: relative path of a child of the node
whose relative path is `rel` (the root itself is `"."`). -/
def joinRel (rel name : String) : String :=
  if rel = "." then name else rel ++ "/" ++ name

/-- Model of `FileService._build_tree`, parametrised by the node's produced `name`
and relative path `rel` (the top-level call uses `"src"` and `"."`; a child
uses its own entry name).  A file becomes a leaf with its byte size; a
directory sorts its entries (directories first, then alphabetically) and
recurses, or records no children when enumeration is not permitted. -/
def buildNode : String → String → FSEntry → FileNode
  | name, rel, .file _ s => .mk name rel "file" (some s) none
  | name, rel, .dir _ entries r =>
      .mk name rel "directory" none
        (some (if r then
            (sortEntries entries).attach.map
              (fun c => buildNode c.1.name (joinRel rel c.1.name) c.1)
          else []))
termination_by _ _ e => sizeOf e
decreasing_by
  have hm : c.1 ∈ sortEntries entries := c.2
  have hm' : c.1 ∈ entries := by
    have := (List.perm_insertionSort entryLE entries).mem_iff.mp hm
    exact this
  have := List.sizeOf_lt_of_mem hm'
  simp only [FSEntry.dir.sizeOf_spec]
  omega

/-- Attach-free unfolding of `buildNode` on a directory. -/
theorem buildNode_dir (name rel n : String) (entries : List FSEntry) (r : Bool) :
    buildNode name rel (.dir n entries r) =
      .mk name rel "directory" none
        (some (if r then
            (sortEntries entries).map
              (fun c => buildNode c.name (joinRel rel c.name) c)
          else [])) := by
  rw [buildNode]
  congr 1
  rcases r with _ | _
  · simp
  · simp [List.attach_map_coe]

/-- Unfolding of `buildNode` on a file. -/
theorem buildNode_file (name rel n : String) (s : Nat) :
    buildNode name rel (.file n s) = .mk name rel "file" (some s) none := by
  rw [buildNode]

/-- Canonical form of a filesystem state: every directory's entry list put
into the walk order.  Two `FSEntry` values describe the same fixed directory
state (the same files and directories, enumerated in possibly different
orders by `iterdir`) exactly when their canonical forms agree. -/
def canon : FSEntry → FSEntry
  | .file n s => .file n s
  | .dir n entries r =>
      .dir n (sortEntries ((entries.attach.map (fun c => canon c.1)))) r
termination_by e => sizeOf e
decreasing_by
  have := List.sizeOf_lt_of_mem c.2
  simp only [FSEntry.dir.sizeOf_spec]
  omega

theorem canon_file (n : String) (s : Nat) : canon (.file n s) = .file n s := by
  rw [canon]

theorem canon_dir (n : String) (entries : List FSEntry) (r : Bool) :
    canon (.dir n entries r) = .dir n (sortEntries (entries.map canon)) r := by
  rw [canon]
  congr 1
  simp [List.attach_map_coe]

theorem entryKey_canon (e : FSEntry) : entryKey (canon e) = entryKey e := by
  cases e with
  | file n s => rw [canon_file]
  | dir n entries r => rw [canon_dir]; rfl

theorem name_canon (e : FSEntry) : (canon e).name = e.name := by
  cases e with
  | file n s => rw [canon_file]
  | dir n entries r => rw [canon_dir]; rfl

theorem entryLE_canon_iff (a b : FSEntry) : entryLE a b ↔ entryLE (canon a) (canon b) := by
  unfold entryLE
  rw [entryKey_canon, entryKey_canon]

theorem sortEntries_idem (l : List FSEntry) :
    sortEntries (sortEntries l) = sortEntries l :=
  List.Sorted.insertionSort_eq (List.sorted_insertionSort entryLE l)

theorem sortEntries_map_canon (l : List FSEntry) :
    (sortEntries l).map canon = sortEntries (l.map canon) :=
  List.map_insertionSort entryLE entryLE canon l
    (fun a _ b _ => entryLE_canon_iff a b)

/-- Lemma: `_build_tree` is insensitive to canonicalisation: it resorts every level
anyway, so only the canonical form of the walked state matters. -/
theorem buildNode_canon_aux (N : Nat) :
    ∀ (e : FSEntry), sizeOf e ≤ N → ∀ (name rel : String),
      buildNode name rel (canon e) = buildNode name rel e := by
  induction N with
  | zero =>
    intro e he
    cases e <;> simp_all [FSEntry.file.sizeOf_spec, FSEntry.dir.sizeOf_spec] <;> omega
  | succ N ih =>
    intro e he name rel
    cases e with
    | file n s => rw [canon_file]
    | dir n entries r =>
      rw [canon_dir, buildNode_dir, buildNode_dir]
      rcases r with _ | _
      · simp
      · simp only [if_pos]
        congr 1
        rw [sortEntries_idem, ← sortEntries_map_canon, List.map_map]
        congr 1
        apply List.map_congr_left
        intro c hc
        have hc' : c ∈ entries := (List.perm_insertionSort entryLE entries).mem_iff.mp hc
        have hsz : sizeOf c ≤ N := by
          have := List.sizeOf_lt_of_mem hc'
          have hd : sizeOf (FSEntry.dir n entries true) ≤ N + 1 := he
          simp only [FSEntry.dir.sizeOf_spec] at hd
          omega
        simp only [Function.comp]
        rw [name_canon, ih c hsz]

theorem buildNode_canon (e : FSEntry) (name rel : String) :
    buildNode name rel (canon e) = buildNode name rel e :=
  buildNode_canon_aux (sizeOf e) e (Nat.le_refl _) name rel

/-- Two lists that are permutations of each other, both in walk order, and
whose sort keys are pairwise distinct, are equal.  (This is why a directory
state with distinct sibling names has a unique canonical form.) -/
theorem eq_of_perm_sorted_nodupkeys :
    ∀ {l₁ l₂ : List FSEntry}, l₁.Perm l₂ →
      l₁.Pairwise entryLE → l₂.Pairwise entryLE →
      (l₁.map entryKey).Nodup → l₁ = l₂ := by
  intro l₁
  induction l₁ with
  | nil =>
    intro l₂ hp _ _ _
    exact (hp.nil_eq).symm ▸ rfl
  | cons a t₁ ih =>
    intro l₂ hp hs₁ hs₂ hn
    cases l₂ with
    | nil => exact absurd hp.symm.nil_eq (by simp)
    | cons b t₂ =>
      by_cases hab : a = b
      · subst hab
        have htp : t₁.Perm t₂ := hp.cons_inv
        rw [ih htp hs₁.of_cons hs₂.of_cons
          (by simpa using (List.nodup_cons.mp (by simpa using hn)).2)]
      · exfalso
        have ha₂ : a ∈ b :: t₂ := hp.mem_iff.mp (List.mem_cons_self a t₁)
        have ha₂' : a ∈ t₂ := by
          rcases List.mem_cons.mp ha₂ with h | h
          · exact absurd h hab
          · exact h
        have hb₁ : b ∈ a :: t₁ := hp.symm.mem_iff.mp (List.mem_cons_self b t₂)
        have hb₁' : b ∈ t₁ := by
          rcases List.mem_cons.mp hb₁ with h | h
          · exact absurd h.symm hab
          · exact h
        have h₁ : entryLE a b := List.rel_of_pairwise_cons hs₁ hb₁'
        have h₂ : entryLE b a := List.rel_of_pairwise_cons hs₂ ha₂'
        have hk : entryKey a = entryKey b := keyLE_antisymm h₁ h₂
        have : entryKey b ∈ t₁.map entryKey := List.mem_map_of_mem entryKey hb₁'
        rw [← hk] at this
        exact (List.nodup_cons.mp (by simpa using hn)).1 this

/-- The sort key of a produced `FileNode` (directories first, then name). -/
def nodeKey (t : FileNode) : Bool × String :=
  (decide (t.type ≠ "directory"), t.name)

/-- Structural invariant of produced trees, at every level: the two node
types, file nodes carry a size and no children, directory nodes carry no
size and always a children list, and every children list is in walk order
(directories before files, names ascending within each group). -/
def WFNode : FileNode → Prop
  | .mk _ _ ty sz ch =>
      (ty = "file" ∨ ty = "directory") ∧
      (ty = "file" → sz ≠ none ∧ ch = none) ∧
      (ty = "directory" → sz = none ∧ ch ≠ none) ∧
      (match ch with
       | none => True
       | some l =>
           l.Pairwise (fun a b => keyLE (nodeKey a) (nodeKey b)) ∧
           ∀ c ∈ l, WFNode c)
termination_by t => sizeOf t
decreasing_by
  rename_i hmem
  have := List.sizeOf_lt_of_mem hmem
  simp only [FileNode.mk.sizeOf_spec, Option.some.sizeOf_spec]
  omega

theorem nodeKey_buildNode (e : FSEntry) (name rel : String) :
    nodeKey (buildNode name rel e) = (!e.isDir, name) := by
  cases e with
  | file n s => rw [buildNode_file]; simp [nodeKey, FileNode.type, FileNode.name, FSEntry.isDir]
  | dir n entries r => rw [buildNode_dir]; simp [nodeKey, FileNode.type, FileNode.name, FSEntry.isDir]

theorem WFNode_buildNode_aux (N : Nat) :
    ∀ (e : FSEntry), sizeOf e ≤ N → ∀ (name rel : String),
      WFNode (buildNode name rel e) := by
  induction N with
  | zero =>
    intro e he
    cases e <;> simp_all [FSEntry.file.sizeOf_spec, FSEntry.dir.sizeOf_spec] <;> omega
  | succ N ih =>
    intro e he name rel
    cases e with
    | file n s =>
      rw [buildNode_file, WFNode]
      refine ⟨Or.inl rfl, fun _ => ⟨by simp, rfl⟩, fun h => absurd h (by simp), trivial⟩
    | dir n entries r =>
      rw [buildNode_dir, WFNode]
      refine ⟨Or.inr rfl, fun h => absurd h (by simp), fun _ => ⟨rfl, by simp⟩, ?_, ?_⟩
      · have hsorted : (sortEntries entries).Pairwise entryLE :=
          List.sorted_insertionSort entryLE entries
        rcases r with _ | _
        · simp
        · simp only [if_pos]
          refine List.Pairwise.map _ ?_ hsorted
          intro a b hab
          rw [nodeKey_buildNode, nodeKey_buildNode]
          exact hab
      · intro c hc
        rcases r with _ | _
        · simp at hc
        · simp only [if_pos, List.mem_map] at hc
          obtain ⟨c₀, hc₀, rfl⟩ := hc
          have hc₀' : c₀ ∈ entries :=
            (List.perm_insertionSort entryLE entries).mem_iff.mp hc₀
          have hsz : sizeOf c₀ ≤ N := by
            have := List.sizeOf_lt_of_mem hc₀'
            have hd : sizeOf (FSEntry.dir n entries true) ≤ N + 1 := he
            simp only [FSEntry.dir.sizeOf_spec] at hd
            omega
          exact ih c₀ hsz _ _

theorem WFNode_buildNode (e : FSEntry) (name rel : String) :
    WFNode (buildNode name rel e) :=
  WFNode_buildNode_aux (sizeOf e) e (Nat.le_refl _) name rel

/-! ## Search engine (`SearchService.search`)

The scan works over a fixed corpus: the version registry (`_file_registry`,
versions in registry order, each with its ordered file-path list) and the
contents the File Content Service returns for each `(version, path)` pair
(`none` models a file that fails to load).  Python strings are sequences of
code points, modelled by `List Char`; `str.lower` is modelled by the
character-wise `Char.toLower` (length-preserving, as the search logic
assumes when it indexes the original content with an index found in the
lowered content). -/

/-- Model of `SearchResult` of `schemas.py`, restricted to the fields the search loop
computes from its inputs (`class_name` is always `None` and `score` always
the constant `1.0`). -/
structure SResult where
  version : String
  filePath : String
  lineNumber : Nat
  snippet : List Char
deriving DecidableEq

/-- Model of `str.lower()`. -/
def lowerStr (l : List Char) : List Char :=
  l.map Char.toLower

/-- Model of `hay.find(needle)` for Python strings: index of the first occurrence of
`needle` as a contiguous substring, `none` when there is none (Python
returns `-1`).  An empty needle is found at index 0. -/
def strFind (hay needle : List Char) : Option Nat :=
  if needle.isPrefixOf hay then some 0
  else
    match hay with
    | [] => none
    | _ :: t => (strFind t needle).map (· + 1)

/-- Model of `content.count("\n", 0, i)`: newline characters strictly before `i`. -/
def countNewlines (content : List Char) (i : Nat) : Nat :=
  ((content.take i).filter (fun c => c = '\n')).length

/-- Python `str.strip()` over the modelled whitespace characters. -/
def pyStrip (l : List Char) : List Char :=
  ((l.dropWhile Char.isWhitespace).reverse.dropWhile Char.isWhitespace).reverse

/-- Model of `SearchService._build_snippet`: a 150-character context window on each
side of the match, stripped, with newlines flattened to spaces. -/
def buildSnippet (content : List Char) (index length : Nat) : List Char :=
  let start := index - 150
  let stop := min content.length (index + length + 150)
  (pyStrip ((content.drop start).take (stop - start))).map
    (fun c => if c = '\n' then ' ' else c)

/-- One iteration of the inner loop, up to pagination: `none` when the file
is skipped (content absent or empty, or no case-insensitive occurrence of
the query), otherwise the single `SearchResult` the file contributes.
`q` is the already-lowered query. -/
def fileMatch (q : List Char) (version filePath : String)
    (content : Option (List Char)) : Option SResult :=
  match content with
  | none => none
  | some c =>
    if c = [] then none
    else
      match strFind (lowerStr c) q with
      | none => none
      | some i =>
          some ⟨version, filePath, countNewlines c i + 1, buildSnippet c i q.length⟩

/-- The loop body of `SearchService.search`: bump `total_matches` for a
matching file, then append it to the page only when it lies beyond `offset`
and the page is not yet full. -/
def searchStep (q : List Char) (limit offset : Nat)
    (acc : Nat × List SResult) (item : String × String × Option (List Char)) :
    Nat × List SResult :=
  match fileMatch q item.1 item.2.1 item.2.2 with
  | none => acc
  | some r =>
      let total := acc.1 + 1
      if total ≤ offset then (total, acc.2)
      else if limit ≤ acc.2.length then (total, acc.2)
      else (total, acc.2 ++ [r])

/-- The registry flattened in scan order: versions in registry order, file
paths within a version in registered order, each paired with the content
the File Content Service yields for it. -/
def corpusFiles (registry : List (String × List String))
    (content : String → String → Option (List Char)) :
    List (String × String × Option (List Char)) :=
  registry.flatMap (fun ve => ve.2.map (fun p => (ve.1, p, content ve.1 p)))

/-- Model of `SearchService.search` over a fixed corpus: lower the query once, then
fold the loop body over the scan order, starting from an empty page and a
zero match count.  Returns `(total, results)` of the `SearchResponse`. -/
def searchRun (registry : List (String × List String))
    (content : String → String → Option (List Char))
    (rawQuery : List Char) (limit offset : Nat) : Nat × List SResult :=
  (corpusFiles registry content).foldl
    (searchStep (lowerStr rawQuery) limit offset) (0, [])

/-- The unpaginated full match sequence: one entry per matching file, in
scan order. -/
def allMatches (q : List Char)
    (files : List (String × String × Option (List Char))) : List SResult :=
  files.filterMap (fun item => fileMatch q item.1 item.2.1 item.2.2)

/-- Invariant of the scan loop: after any prefix of the scan whose matches
are `ms`, the accumulator is exactly `(ms.length, (ms.drop offset).take limit)`;
folding the rest of the files preserves this shape. -/
theorem searchStep_fold (q : List Char) (limit offset : Nat) :
    ∀ (files : List (String × String × Option (List Char))) (ms : List SResult),
      files.foldl (searchStep q limit offset) (ms.length, (ms.drop offset).take limit)
        = ((ms ++ allMatches q files).length,
            (((ms ++ allMatches q files).drop offset).take limit)) := by
  intro files
  induction files with
  | nil => intro ms; simp [allMatches]
  | cons f rest ih =>
    intro ms
    rw [List.foldl_cons]
    cases hm : fileMatch q f.1 f.2.1 f.2.2 with
    | none =>
      have hall : allMatches q (f :: rest) = allMatches q rest := by
        simp [allMatches, List.filterMap_cons, hm]
      rw [hall, searchStep, hm, ih ms]
    | some r =>
      have hall : allMatches q (f :: rest) = r :: allMatches q rest := by
        simp [allMatches, List.filterMap_cons, hm]
      have hstep : searchStep q limit offset (ms.length, (ms.drop offset).take limit) f
          = ((ms ++ [r]).length, ((ms ++ [r]).drop offset).take limit) := by
        rw [searchStep, hm]
        by_cases ho : ms.length + 1 ≤ offset
        · have h₁ : (ms ++ [r]).drop offset = [] := by
            apply List.drop_eq_nil_of_le
            simp; omega
          have h₂ : ms.drop offset = [] := by
            apply List.drop_eq_nil_of_le
            omega
          simp [ho, h₁, h₂]
        · have hoff : offset ≤ ms.length := by omega
          have hdrop : (ms ++ [r]).drop offset = ms.drop offset ++ [r] :=
            List.drop_append_of_le_length hoff
          by_cases hl : limit ≤ ((ms.drop offset).take limit).length
          · have hlen : limit ≤ (ms.drop offset).length := by
              rcases Nat.le_total limit (ms.drop offset).length with h | h
              · exact h
              · rw [List.take_of_length_le h] at hl; omega
            have htake : ((ms.drop offset) ++ [r]).take limit
                = (ms.drop offset).take limit :=
              List.take_append_of_le_length hlen
            rw [List.length_drop] at hlen
            simp [ho, hl, hdrop, htake]
            omega
          · have hlen : (ms.drop offset).length < limit := by
              rw [List.length_take] at hl
              omega
            have htake : ((ms.drop offset) ++ [r]).take limit
                = (ms.drop offset).take limit ++ [r] := by
              rw [List.take_append_eq_append_take,
                List.take_of_length_le (Nat.le_of_lt hlen)]
              congr 1
              have : 1 ≤ limit - (ms.drop offset).length := by omega
              cases hq : limit - (ms.drop offset).length with
              | zero => omega
              | succ m => simp
            rw [List.take_of_length_le (Nat.le_of_lt hlen)] at htake ⊢
            rw [List.length_drop] at hlen
            simp [ho, hl, hdrop, htake]
            omega
        done
      rw [hstep, ih (ms ++ [r]), hall]
      simp

/-- The page returned by a scan is the `[offset, offset + limit)` slice of
the full match sequence, and the returned total is its full length. -/
theorem searchRun_slice (registry : List (String × List String))
    (content : String → String → Option (List Char))
    (rawQuery : List Char) (limit offset : Nat) :
    searchRun registry content rawQuery limit offset
      = ((allMatches (lowerStr rawQuery) (corpusFiles registry content)).length,
          ((allMatches (lowerStr rawQuery) (corpusFiles registry content)).drop
              offset).take limit) := by
  have h := searchStep_fold (lowerStr rawQuery) limit offset
    (corpusFiles registry content) []
  simpa [searchRun] using h

/-- Lemma: `strFind` finds an actual occurrence: the needle starts at the returned
index. -/
theorem strFind_found :
    ∀ (hay needle : List Char) (i : Nat), strFind hay needle = some i →
      needle.isPrefixOf (hay.drop i) = true := by
  intro hay
  induction hay with
  | nil =>
    intro needle i h
    rw [strFind] at h
    by_cases hp : needle.isPrefixOf ([] : List Char)
    · simp [hp] at h
      subst h
      simpa using hp
    · simp [hp] at h
  | cons c t ih =>
    intro needle i h
    rw [strFind] at h
    by_cases hp : needle.isPrefixOf (c :: t)
    · simp [hp] at h
      subst h
      simpa using hp
    · simp [hp] at h
      obtain ⟨i', hi', rfl⟩ := h
      simpa using ih needle i' hi'

/-- Lemma: `strFind` finds the first occurrence: no occurrence starts strictly
before the returned index. -/
theorem strFind_first :
    ∀ (hay needle : List Char) (i : Nat), strFind hay needle = some i →
      ∀ j < i, needle.isPrefixOf (hay.drop j) = false := by
  intro hay
  induction hay with
  | nil =>
    intro needle i h
    rw [strFind] at h
    by_cases hp : needle.isPrefixOf ([] : List Char)
    · simp [hp] at h
      subst h
      omega
    · simp [hp] at h
  | cons c t ih =>
    intro needle i h
    rw [strFind] at h
    by_cases hp : needle.isPrefixOf (c :: t)
    · simp [hp] at h
      subst h
      omega
    · simp [hp] at h
      obtain ⟨i', hi', rfl⟩ := h
      intro j hj
      cases j with
      | zero => exact Bool.eq_false_iff.mpr hp
      | succ j' =>
        have : j' < i' := by omega
        simpa using ih needle i' hi' j' this

/-- Lemma: `strFind` misses only when there is no occurrence at any index. -/
theorem strFind_none :
    ∀ (hay needle : List Char), strFind hay needle = none →
      ∀ j, needle.isPrefixOf (hay.drop j) = false := by
  intro hay
  induction hay with
  | nil =>
    intro needle h j
    rw [strFind] at h
    by_cases hp : needle.isPrefixOf ([] : List Char)
    · simp [hp] at h
    · rw [List.drop_nil]
      exact Bool.eq_false_iff.mpr hp
  | cons c t ih =>
    intro needle h j
    rw [strFind] at h
    by_cases hp : needle.isPrefixOf (c :: t)
    · simp [hp] at h
    · simp [hp] at h
      cases j with
      | zero => exact Bool.eq_false_iff.mpr hp
      | succ j' => simpa using ih needle h j'

/-! ## File content service (`FileService.get_file_content`)

The disk below `<dataRoot>/<version>/src/` is modelled as a partial map from
`(version, relativePath)` to what the operating system reports for the
resolved path: `none` when `file_path.exists()` is false, otherwise a
`DiskFile` whose `readResult` is the decoded text when opening, reading and
UTF-8-decoding the path succeeds and `none` when any of those raises (which
includes the path being a directory, e.g. the `src` root that an empty
relative path resolves to); `size` is `stat().st_size`. -/

structure DiskFile where
  readResult : Option String
  size : Nat

def Disk := String → String → Option DiskFile

/-- Model of `FileContent` of `schemas.py`. -/
structure FileContentR where
  path : String
  content : String
  size : Nat
  language : String
  version : String

/-- The cache-miss path of `get_file_content`: check existence, try to read
and decode, cache the text with the configured TTL on success, collapse
every failure to `None`. -/
def readFromDisk (now ttl : Int) (cs : CacheState) (disk : Disk) (v p key : String) :
    Option FileContentR × CacheState :=
  match disk v p with
  | none => (none, cs)
  | some e =>
    match e.readResult with
    | none => (none, cs)
    | some content =>
        (some ⟨p, content, e.size, "java", v⟩,
         cacheSetStr now cs key content (some ttl))

/-- Model of `FileService.get_file_content`: probe the cache first (`if cached:` is
Python-truthy, so an empty cached string falls through to the filesystem);
on a truthy hit pair the cached text with a fresh `stat` size, defaulting to
0 when the path no longer exists; otherwise read from disk.  `ttl` is
`settings.cache_ttl` (3600 by default). -/
def getFileContent (now ttl : Int) (cs : CacheState) (disk : Disk) (v p : String) :
    Option FileContentR × CacheState :=
  match cacheGetStr now cs (cacheKeyFile v p) with
  | (some s, cs₁) =>
      if s = "" then readFromDisk now ttl cs₁ disk v p (cacheKeyFile v p)
      else
        (some ⟨p, s, (match disk v p with | none => 0 | some e => e.size), "java", v⟩, cs₁)
  | (none, cs₁) => readFromDisk now ttl cs₁ disk v p (cacheKeyFile v p)

/-! ## File tree lookup (`FileService.get_file_tree`)

The durable tier (`DatabaseService.get_file_tree` /
`DatabaseService.cache_file_tree` over the `file_tree_cache` table) is
modelled as a partial map from version id to the result of `json.loads` on
the stored row: the outer `Option` is row presence, the inner `Option` is
the parse — `some none` is a stored document that fails to decode (or
decodes to a falsy value), which `get_file_tree` treats exactly like a
missing row.  A successfully parsed tree document is identified with its
`FileNode`. -/

def DbTree := String → Option (Option FileNode)

/-- The cache-miss path of `get_file_tree`: durable store, then filesystem
walk written back to both tiers, then absent. `fs` maps a version to the
root entry of its `src` directory when that directory exists. -/
def treeMissPath (now ttl : Int) (st₁ : CacheState) (db : DbTree)
    (fs : String → Option FSEntry) (v : String) :
    Option FileNode × CacheState × DbTree :=
  match db v with
  | some (some doc) =>
      (some doc, cacheSet now st₁ (cacheKeyTree v) (.tree doc) (some ttl), db)
  | _ =>
      match fs v with
      | none => (none, st₁, db)
      | some root =>
          (some (buildNode "src" "." root),
           cacheSet now st₁ (cacheKeyTree v) (.tree (buildNode "src" "." root)) (some ttl),
           fun w => if w = v then some (some (buildNode "src" "." root)) else db w)

/-- Model of `FileService.get_file_tree`: memory tier (`get_json`; a non-empty
cached value is truthy, and a truthy non-dict value would make
`FileNode(**cached)` raise, modelled by `Except.error`), then the miss
path. -/
def getFileTree (now ttl : Int) (st : CacheState) (db : DbTree)
    (fs : String → Option FSEntry) (v : String) :
    Except Unit (Option FileNode × CacheState × DbTree) :=
  match cacheGet now st (cacheKeyTree v) with
  | (some (.tree t), st₁) => .ok (some t, st₁, db)
  | (some (.str s), st₁) =>
      if s = "" then .ok (treeMissPath now ttl st₁ db fs v)
      else .error ()
  | (none, st₁) => .ok (treeMissPath now ttl st₁ db fs v)

/-! ## Claim theorems -/

/-- C1: for every fixed corpus and query, the `total` of the search response
is the same for every choice of `limit` and `offset`, it equals the length
of the full unpaginated match sequence, and the returned page equals the
slice `[offset, offset + limit)` of that sequence (hence concatenating the
pages obtained by advancing `offset` by `limit` from 0 reproduces each
matching file exactly once, in stable scan order). -/
theorem search_pagination_invariant
    (registry : List (String × List String))
    (content : String → String → Option (List Char))
    (rawQuery : List Char) (limit offset limit' offset' : Nat) :
    (searchRun registry content rawQuery limit offset).1
        = (searchRun registry content rawQuery limit' offset').1
    ∧ (searchRun registry content rawQuery limit offset).1
        = (allMatches (lowerStr rawQuery) (corpusFiles registry content)).length
    ∧ (searchRun registry content rawQuery limit offset).2
        = ((allMatches (lowerStr rawQuery) (corpusFiles registry content)).drop
            offset).take limit := by
  rw [searchRun_slice, searchRun_slice]
  exact ⟨rfl, rfl, rfl⟩

/-- C2: the scan iterates versions in registry order and paths within a
version in registered order (the full unpaginated result is the in-order
one-result-per-file map over that flattening, so a file with several
occurrences contributes exactly one result and bumps `total` by one); files
with absent or empty content are skipped; matching is a case-insensitive
substring search locating only the first occurrence; and the reported line
number is the count of newlines strictly before the match index, plus 1. -/
theorem search_matching_behavior
    (registry : List (String × List String))
    (content : String → String → Option (List Char))
    (rawQuery : List Char) :
    ((searchRun registry content rawQuery
        (allMatches (lowerStr rawQuery) (corpusFiles registry content)).length 0).2
      = allMatches (lowerStr rawQuery) (corpusFiles registry content))
    ∧ (∀ v p, fileMatch (lowerStr rawQuery) v p none = none)
    ∧ (∀ v p, fileMatch (lowerStr rawQuery) v p (some []) = none)
    ∧ (∀ v p c r, fileMatch (lowerStr rawQuery) v p (some c) = some r →
        ∃ i, strFind (lowerStr c) (lowerStr rawQuery) = some i
          ∧ (lowerStr rawQuery).isPrefixOf ((lowerStr c).drop i) = true
          ∧ (∀ j < i, (lowerStr rawQuery).isPrefixOf ((lowerStr c).drop j) = false)
          ∧ r = ⟨v, p, countNewlines c i + 1, buildSnippet c i (lowerStr rawQuery).length⟩) := by
  refine ⟨?_, fun v p => rfl, fun v p => rfl, ?_⟩
  · rw [searchRun_slice]
    simp [List.take_of_length_le]
  · intro v p c r h
    rw [fileMatch] at h
    by_cases hc : c = []
    · simp [hc] at h
    · rw [if_neg hc] at h
      cases hfind : strFind (lowerStr c) (lowerStr rawQuery) with
      | none => rw [hfind] at h; exact absurd h (by simp)
      | some i =>
          rw [hfind] at h
          refine ⟨i, rfl, strFind_found _ _ _ hfind, strFind_first _ _ _ hfind, ?_⟩
          cases h
          rfl

/-- Witness for C2 on the concrete corpus `{v1: [A.java ↦ "aB"]}` with raw
query `"b"`: the case-insensitive first occurrence is at index 1, on line 1. -/
theorem search_matching_behavior_witness :
    ∃ i, strFind (lowerStr ['a', 'B']) (lowerStr ['b']) = some i
      ∧ (lowerStr ['b']).isPrefixOf ((lowerStr ['a', 'B']).drop i) = true
      ∧ (∀ j < i, (lowerStr ['b']).isPrefixOf ((lowerStr ['a', 'B']).drop j) = false)
      ∧ (⟨"v1", "A.java", 1, ['a', 'B']⟩ : SResult)
          = ⟨"v1", "A.java", countNewlines ['a', 'B'] i + 1,
              buildSnippet ['a', 'B'] i (lowerStr ['b']).length⟩ :=
  (search_matching_behavior [("v1", ["A.java"])] (fun _ _ => some ['a', 'B'])
      ['b']).2.2.2 "v1" "A.java" ['a', 'B'] ⟨"v1", "A.java", 1, ['a', 'B']⟩ (by decide)

/-- C6: building the tree is deterministic for a fixed directory state —
two filesystem snapshots with the same canonical form (same files and
directories, `iterdir` enumeration order free; with distinct sibling names a
permutation of any directory's entries does not change the canonical form)
produce identical trees; and every produced tree is well-formed at every
level: directory children precede file children and each group is
alphabetical, file nodes carry a size and no children, directory nodes carry
a (possibly empty) children list, and the root is named `"src"`. -/
theorem tree_build_deterministic_and_ordered :
    (∀ (e₁ e₂ : FSEntry), canon e₁ = canon e₂ →
        buildNode "src" "." e₁ = buildNode "src" "." e₂)
    ∧ (∀ (n : String) (r : Bool) (l₁ l₂ : List FSEntry), l₁.Perm l₂ →
        (l₁.map entryKey).Nodup →
        canon (.dir n l₁ r) = canon (.dir n l₂ r))
    ∧ (∀ e, WFNode (buildNode "src" "." e))
    ∧ (∀ e, (buildNode "src" "." e).name = "src") := by
  refine ⟨?_, ?_, fun e => WFNode_buildNode e "src" ".", ?_⟩
  · intro e₁ e₂ h
    rw [← buildNode_canon e₁, ← buildNode_canon e₂, h]
  · intro n r l₁ l₂ hp hn
    rw [canon_dir, canon_dir]
    have hkeys : ∀ (l : List FSEntry), (l.map canon).map entryKey = l.map entryKey := by
      intro l
      rw [List.map_map]
      exact List.map_congr_left (fun a _ => entryKey_canon a)
    have hperm : (sortEntries (l₁.map canon)).Perm (sortEntries (l₂.map canon)) :=
      ((List.perm_insertionSort entryLE (l₁.map canon)).trans (hp.map canon)).trans
        (List.perm_insertionSort entryLE (l₂.map canon)).symm
    have hnd : ((sortEntries (l₁.map canon)).map entryKey).Nodup := by
      refine ((List.perm_insertionSort entryLE (l₁.map canon)).map entryKey).nodup_iff.mpr ?_
      rw [hkeys]
      exact hn
    rw [eq_of_perm_sorted_nodupkeys hperm
      (List.sorted_insertionSort entryLE (l₁.map canon))
      (List.sorted_insertionSort entryLE (l₂.map canon)) hnd]
  · intro e
    cases e with
    | file n s => rw [buildNode_file]; rfl
    | dir n entries r => rw [buildNode_dir]; rfl

/-- Witness for C6: a directory whose two enumeration orders of files
`a`, `b` build the same tree, plus the invariants on a small tree. -/
theorem tree_build_deterministic_and_ordered_witness :
    buildNode "src" "." (.dir "d" [.file "b" 1, .file "a" 2] true)
        = buildNode "src" "." (.dir "d" [.file "a" 2, .file "b" 1] true)
    ∧ WFNode (buildNode "src" "." (.file "n" 3))
    ∧ (buildNode "src" "." (.file "n" 3)).name = "src" :=
  ⟨tree_build_deterministic_and_ordered.1 _ _
      (tree_build_deterministic_and_ordered.2.1 "d" true _ _
        (List.Perm.swap (FSEntry.file "a" 2) (FSEntry.file "b" 1) []) (by decide)),
    tree_build_deterministic_and_ordered.2.2.1 _,
    tree_build_deterministic_and_ordered.2.2.2 _⟩

/-- C3: `getFileTree` resolves through the tiers in priority order: a
memory-cache hit is returned as is; on a miss, a durable-store hit is
written into the memory cache with a bounded TTL and returned; otherwise a
filesystem walk is written back to both the memory cache and the durable
store and returned; the result is absent exactly when no tier has the
version (source root missing); and a persisted document that fails to parse
(inner `none`) behaves exactly like a missing row, triggering the rebuild
instead of raising. -/
theorem tree_lookup_tiered (now ttl : Int) (st : CacheState) (db : DbTree)
    (fs : String → Option FSEntry) (v : String) (httl : ttl ≠ 0) :
    (∀ t st₁, cacheGet now st (cacheKeyTree v) = (some (.tree t), st₁) →
        getFileTree now ttl st db fs v = .ok (some t, st₁, db))
    ∧ (∀ st₁ doc, cacheGet now st (cacheKeyTree v) = (none, st₁) →
        db v = some (some doc) →
        getFileTree now ttl st db fs v
            = .ok (some doc, cacheSet now st₁ (cacheKeyTree v) (.tree doc) (some ttl), db)
          ∧ lookupStore
              (cacheSet now st₁ (cacheKeyTree v) (.tree doc) (some ttl)).store
              (cacheKeyTree v)
            = some ⟨.tree doc, some (now + ttl)⟩)
    ∧ (∀ st₁ root, cacheGet now st (cacheKeyTree v) = (none, st₁) →
        (db v = none ∨ db v = some none) → fs v = some root →
        getFileTree now ttl st db fs v
          = .ok (some (buildNode "src" "." root),
              cacheSet now st₁ (cacheKeyTree v)
                (.tree (buildNode "src" "." root)) (some ttl),
              fun w => if w = v then some (some (buildNode "src" "." root)) else db w))
    ∧ (∀ st₁, cacheGet now st (cacheKeyTree v) = (none, st₁) →
        (db v = none ∨ db v = some none) → fs v = none →
        getFileTree now ttl st db fs v = .ok (none, st₁, db))
    ∧ (∀ res, getFileTree now ttl st db fs v = .ok res → res.1 = none →
        ((cacheGet now st (cacheKeyTree v)).1 = none
            ∨ (cacheGet now st (cacheKeyTree v)).1 = some (.str ""))
          ∧ (db v = none ∨ db v = some none) ∧ fs v = none) := by
  refine ⟨?_, ?_, ?_, ?_, ?_⟩
  · intro t st₁ h
    rw [getFileTree, h]
  · intro st₁ doc h hdb
    constructor
    · rw [getFileTree, h]
      show Except.ok (treeMissPath now ttl st₁ db fs v) = _
      rw [treeMissPath.eq_def, hdb]
    · rw [cacheSet]
      simp [lookupStore, expiryOf, httl]
  · intro st₁ root h hdb hfs
    rcases hdb with hdb | hdb <;>
      · rw [getFileTree, h]
        show Except.ok (treeMissPath now ttl st₁ db fs v) = _
        rw [treeMissPath.eq_def, hdb, hfs]
  · intro st₁ h hdb hfs
    rcases hdb with hdb | hdb <;>
      · rw [getFileTree, h]
        show Except.ok (treeMissPath now ttl st₁ db fs v) = _
        rw [treeMissPath.eq_def, hdb, hfs]
  · intro res hres hnone
    have hmiss : ∀ st₁ : CacheState, res = treeMissPath now ttl st₁ db fs v →
        (db v = none ∨ db v = some none) ∧ fs v = none := by
      intro st₁ hres₁
      rw [hres₁, treeMissPath.eq_def] at hnone
      cases hdb : db v with
      | none =>
          rw [hdb] at hnone
          cases hfs : fs v with
          | none => exact ⟨Or.inl rfl, rfl⟩
          | some root => rw [hfs] at hnone; simp at hnone
      | some inner =>
          cases inner with
          | none =>
              rw [hdb] at hnone
              cases hfs : fs v with
              | none => exact ⟨Or.inr rfl, rfl⟩
              | some root => rw [hfs] at hnone; simp at hnone
          | some doc => rw [hdb] at hnone; simp at hnone
    rw [getFileTree] at hres
    cases hget : cacheGet now st (cacheKeyTree v) with
    | mk val st₁ =>
      rw [hget] at hres
      cases val with
      | some cv =>
        cases cv with
        | tree t =>
            have : res = (some t, st₁, db) := by
              cases hres
              rfl
            rw [this] at hnone
            simp at hnone
        | str s =>
            have hres' : (if s = "" then
                  Except.ok (treeMissPath now ttl st₁ db fs v)
                else (Except.error () : Except Unit (Option FileNode × CacheState × DbTree)))
                = Except.ok res := hres
            by_cases hs : s = ""
            · subst hs
              have : res = treeMissPath now ttl st₁ db fs v := by
                rw [if_pos rfl] at hres'
                cases hres'
                rfl
              exact ⟨Or.inr rfl, hmiss st₁ this⟩
            · rw [if_neg hs] at hres'
              cases hres'
      | none =>
          have : res = treeMissPath now ttl st₁ db fs v := by
            cases hres
            rfl
          exact ⟨Or.inl rfl, hmiss st₁ this⟩

/-- Witness for C3: on the empty cache and empty durable store, with a
version whose `src` root exists and is empty, the lookup rebuilds from the
filesystem and writes both tiers. -/
theorem tree_lookup_tiered_witness :
    getFileTree 0 3600 emptyCache (fun _ => none)
        (fun _ => some (.dir "src" [] true)) "1.20.1"
      = .ok (some (buildNode "src" "." (.dir "src" [] true)),
          cacheSet 0 ⟨[], 0, 1⟩ (cacheKeyTree "1.20.1")
            (.tree (buildNode "src" "." (.dir "src" [] true))) (some 3600),
          fun w => if w = "1.20.1"
            then some (some (buildNode "src" "." (.dir "src" [] true)))
            else none) :=
  (tree_lookup_tiered 0 3600 emptyCache (fun _ => none)
      (fun _ => some (.dir "src" [] true)) "1.20.1" (by decide)).2.2.1
    ⟨[], 0, 1⟩ (.dir "src" [] true) rfl (Or.inl rfl) rfl

/-! ### Helper lemmas about the cache store -/

theorem lookupStore_none_of_keys_ne :
    ∀ (store : List (String × CacheEntry)) (k : String),
      (∀ kv ∈ store, kv.1 ≠ k) → lookupStore store k = none := by
  intro store
  induction store with
  | nil => intro k _; rfl
  | cons kv rest ih =>
    intro k h
    rw [lookupStore]
    rcases kv with ⟨k', e⟩
    rw [if_neg (h (k', e) (List.mem_cons_self _ _))]
    exact ih k (fun kv hkv => h kv (List.mem_cons_of_mem _ hkv))

theorem mem_purgeStore {now : Int} {store : List (String × CacheEntry)}
    {kv : String × CacheEntry} (h : kv ∈ purgeStore now store) : kv ∈ store :=
  (List.mem_filter.mp h).1

/-- Lemma: `get_str` right after a `set_str` for the same key: the freshly stored
string is returned unless the lazy sweep already classifies the new entry as
expired; no older binding can resurface. -/
theorem cacheGetStr_after_set (now₁ now₂ : Int) (st : CacheState) (k s : String)
    (ttl : Option Int) :
    ∃ st', cacheGetStr now₂ (cacheSetStr now₁ st k s ttl) k
        = ((if entryExpired now₂ ⟨.str s, expiryOf now₁ ttl⟩ then none else some s), st') := by
  rw [cacheSetStr, cacheSet]
  have hfilter : ∀ kv ∈ purgeStore now₂
      (st.store.filter (fun kv => decide (kv.1 ≠ k))), kv.1 ≠ k := by
    intro kv hkv
    have := (List.mem_filter.mp (mem_purgeStore hkv)).2
    simpa using this
  cases hexp : entryExpired now₂ ⟨.str s, expiryOf now₁ ttl⟩ with
  | true =>
    refine ⟨⟨purgeStore now₂ (st.store.filter (fun kv => decide (kv.1 ≠ k))),
        st.hits, st.misses + 1⟩, ?_⟩
    rw [cacheGetStr, cacheGet]
    have hp : purgeStore now₂
        ((k, (⟨.str s, expiryOf now₁ ttl⟩ : CacheEntry))
          :: st.store.filter (fun kv => decide (kv.1 ≠ k)))
        = purgeStore now₂ (st.store.filter (fun kv => decide (kv.1 ≠ k))) := by
      rw [purgeStore, List.filter_cons]
      simp only [hexp]
      rfl
    simp only [hp]
    rw [lookupStore_none_of_keys_ne _ k (hfilter)]
    rfl
  | false =>
    refine ⟨⟨(k, (⟨.str s, expiryOf now₁ ttl⟩ : CacheEntry))
        :: purgeStore now₂ (st.store.filter (fun kv => decide (kv.1 ≠ k))),
        st.hits + 1, st.misses⟩, ?_⟩
    rw [cacheGetStr, cacheGet]
    have hp : purgeStore now₂
        ((k, (⟨.str s, expiryOf now₁ ttl⟩ : CacheEntry))
          :: st.store.filter (fun kv => decide (kv.1 ≠ k)))
        = (k, (⟨.str s, expiryOf now₁ ttl⟩ : CacheEntry))
          :: purgeStore now₂ (st.store.filter (fun kv => decide (kv.1 ≠ k))) := by
      rw [purgeStore, List.filter_cons]
      simp only [hexp]
      rfl
    simp only [hp]
    rw [lookupStore, if_pos rfl]
    rfl

/-- C4 as stated is falsified by a zero-byte file: the first read succeeds
and caches the empty string, but the truthiness guard treats the cached `""`
as a miss, so after deletion the second call returns absent instead of the
cached (identical, empty) content. -/
theorem content_cache_second_read_cex :
    (getFileContent 0 3600 emptyCache (fun _ _ => some ⟨some "", 0⟩) "V" "f").1
      = some ⟨"f", "", 0, "java", "V"⟩
    ∧ (getFileContent 0 3600
        (getFileContent 0 3600 emptyCache (fun _ _ => some ⟨some "", 0⟩) "V" "f").2
        (fun _ _ => none) "V" "f").1 = none := by
  constructor <;> rfl

/-- C4 (amended): for every file whose read yields *non-empty* content, a
second `getFileContent` before the cached entry expires returns the same
content from the cache for every later disk state — even when the file was
deleted in between, in which case the freshly stat-ed size defaults to 0
while the cached text is still returned. -/
theorem content_cache_second_read (now₁ now₂ ttl : Int) (cs₀ : CacheState)
    (disk₁ : Disk) (v p c : String) (n : Nat)
    (hmiss : (cacheGetStr now₁ cs₀ (cacheKeyFile v p)).1 = none
      ∨ (cacheGetStr now₁ cs₀ (cacheKeyFile v p)).1 = some "")
    (hdisk : disk₁ v p = some ⟨some c, n⟩)
    (hc : c ≠ "")
    (hle : now₂ ≤ now₁ + ttl) (httl : ttl ≠ 0) :
    ∃ cs₁, getFileContent now₁ ttl cs₀ disk₁ v p = (some ⟨p, c, n, "java", v⟩, cs₁)
      ∧ ∀ disk₂ : Disk,
          (getFileContent now₂ ttl cs₁ disk₂ v p).1
            = some ⟨p, c, (match disk₂ v p with | none => 0 | some e => e.size),
                "java", v⟩ := by
  obtain ⟨o, X, hget⟩ : ∃ o X, cacheGetStr now₁ cs₀ (cacheKeyFile v p) = (o, X) :=
    ⟨_, _, rfl⟩
  rw [hget] at hmiss
  have ho : o = none ∨ o = some "" := hmiss
  have hread : readFromDisk now₁ ttl X disk₁ v p (cacheKeyFile v p)
      = (some ⟨p, c, n, "java", v⟩,
          cacheSetStr now₁ X (cacheKeyFile v p) c (some ttl)) := by
    rw [readFromDisk.eq_def, hdisk]
  have hfirst : getFileContent now₁ ttl cs₀ disk₁ v p
      = (some ⟨p, c, n, "java", v⟩,
          cacheSetStr now₁ X (cacheKeyFile v p) c (some ttl)) := by
    rw [getFileContent, hget]
    rcases ho with rfl | rfl
    · exact hread
    · exact hread
  refine ⟨_, hfirst, ?_⟩
  intro disk₂
  have hexp : entryExpired now₂ ⟨.str c, expiryOf now₁ (some ttl)⟩ = false := by
    rw [entryExpired, expiryOf, if_neg httl]
    have : ¬(now₁ + ttl < now₂) := by omega
    simp [this]
  obtain ⟨st', hst'⟩ := cacheGetStr_after_set now₁ now₂
    X (cacheKeyFile v p) c (some ttl)
  rw [hexp] at hst'
  simp only [Bool.false_eq_true, if_false] at hst'
  rw [getFileContent, hst']
  simp [hc]

/-- Witness for the amended C4: a one-byte file read at time 0 and deleted;
the second call at time 1 still returns the cached text with size 0. -/
theorem content_cache_second_read_witness :
    ∃ cs₁, getFileContent 0 3600 emptyCache (fun _ _ => some ⟨some "x", 1⟩) "V" "f"
        = (some ⟨"f", "x", 1, "java", "V"⟩, cs₁)
      ∧ ∀ disk₂ : Disk,
          (getFileContent 1 3600 cs₁ disk₂ "V" "f").1
            = some ⟨"f", "x", (match disk₂ "V" "f" with | none => 0 | some e => e.size),
                "java", "V"⟩ :=
  content_cache_second_read 0 1 3600 emptyCache (fun _ _ => some ⟨some "x", 1⟩)
    "V" "f" "x" 1 (Or.inl rfl) rfl (by decide) (by omega) (by decide)

/-- The state component of a `get` always carries exactly the purged store:
the lazy sweep is the only store mutation a lookup performs. -/
theorem cacheGetStr_snd_store (now : Int) (cs : CacheState) (k : String) :
    (cacheGetStr now cs k).2.store = purgeStore now cs.store := by
  rw [cacheGetStr, cacheGet]
  cases hl : lookupStore (purgeStore now cs.store) k with
  | none => rfl
  | some e =>
    rcases e with ⟨val, exp⟩
    cases val with
    | str s => rfl
    | tree t => rfl

/-- The purge sweep never adds or changes a binding: every key either still
resolves to its old entry or to nothing (for stores with unique keys, which
is what dict states are). -/
theorem lookupStore_purge_or_none (now : Int) :
    ∀ (store : List (String × CacheEntry)) (k : String),
      (store.map Prod.fst).Nodup →
      lookupStore (purgeStore now store) k = lookupStore store k
        ∨ lookupStore (purgeStore now store) k = none := by
  intro store
  induction store with
  | nil => intro k _; left; rfl
  | cons kv rest ih =>
    intro k hnd
    rcases kv with ⟨k', e⟩
    have hnd' : (rest.map Prod.fst).Nodup := (List.nodup_cons.mp (by simpa using hnd)).2
    have hk' : k' ∉ rest.map Prod.fst := (List.nodup_cons.mp (by simpa using hnd)).1
    rw [purgeStore, List.filter_cons]
    by_cases hexp : (!entryExpired now e) = true
    · rw [if_pos hexp]
      rw [lookupStore, lookupStore]
      by_cases hk : k' = k
      · rw [if_pos hk, if_pos hk]
        left; rfl
      · rw [if_neg hk, if_neg hk]
        exact ih k hnd'
    · rw [if_neg hexp]
      by_cases hk : k' = k
      · subst hk
        right
        apply lookupStore_none_of_keys_ne
        intro kv hkv hkk
        apply hk'
        rw [← hkk]
        exact List.mem_map_of_mem Prod.fst (mem_purgeStore hkv)
      · rw [lookupStore, if_neg hk]
        exact ih k hnd'

/-- C5: on a cache miss, `getFileContent` returns absent — never raises —
in every failure case: resolved path missing, path present but unreadable or
undecodable, and the empty relative path (which resolves to the version's
`src` directory, a path that never reads as a file); on all of these the
cache gains no entry — the state only undergoes the lazy expiry sweep every
`get` performs, which can only drop expired entries, and a write happens
only after a fully successful read. -/
theorem content_failure_absent (now ttl : Int) (cs : CacheState) (disk : Disk)
    (v p : String)
    (hmiss : (cacheGetStr now cs (cacheKeyFile v p)).1 = none
      ∨ (cacheGetStr now cs (cacheKeyFile v p)).1 = some "")
    (hnd : (cs.store.map Prod.fst).Nodup) :
    (disk v p = none →
        getFileContent now ttl cs disk v p
          = (none, (cacheGetStr now cs (cacheKeyFile v p)).2))
    ∧ (∀ e, disk v p = some e → e.readResult = none →
        getFileContent now ttl cs disk v p
          = (none, (cacheGetStr now cs (cacheKeyFile v p)).2))
    ∧ (p = "" → (∀ e, disk v "" = some e → e.readResult = none) →
        getFileContent now ttl cs disk v ""
          = (none, (cacheGetStr now cs (cacheKeyFile v "")).2))
    ∧ (cacheGetStr now cs (cacheKeyFile v p)).2.store = purgeStore now cs.store
    ∧ (∀ k, lookupStore (purgeStore now cs.store) k = lookupStore cs.store k
        ∨ lookupStore (purgeStore now cs.store) k = none) := by
  obtain ⟨o, X, hget⟩ : ∃ o X, cacheGetStr now cs (cacheKeyFile v p) = (o, X) :=
    ⟨_, _, rfl⟩
  rw [hget] at hmiss
  have ho : o = none ∨ o = some "" := hmiss
  have hgf : getFileContent now ttl cs disk v p
      = readFromDisk now ttl X disk v p (cacheKeyFile v p) := by
    rw [getFileContent, hget]
    rcases ho with rfl | rfl
    · rfl
    · rfl
  refine ⟨?_, ?_, ?_, ?_, fun k => lookupStore_purge_or_none now cs.store k hnd⟩
  · intro hd
    rw [hgf, readFromDisk.eq_def, hd, hget]
  · intro e hd hr
    rw [hgf, readFromDisk.eq_def]
    simp only [hd, hr, hget]
  · intro hp hdir
    subst hp
    cases hd : disk v "" with
    | none => rw [hgf, readFromDisk.eq_def, hd, hget]
    | some e =>
      rw [hgf, readFromDisk.eq_def]
      simp only [hd, hdir e hd, hget]
  · exact cacheGetStr_snd_store now cs (cacheKeyFile v p)

/-- Witness for C5: empty cache, empty disk — the read of a missing path is
absent and the cache is untouched. -/
theorem content_failure_absent_witness :
    getFileContent 0 3600 emptyCache (fun _ _ => none) "V" "a/B.java"
      = (none, (cacheGetStr 0 emptyCache (cacheKeyFile "V" "a/B.java")).2) :=
  (content_failure_absent 0 3600 emptyCache (fun _ _ => none) "V" "a/B.java"
    (Or.inl rfl) (by decide)).1 rfl

/-- C10: a cached empty string at a `(version, relativePath)` key is
rejected by the truthiness guard, so the lookup behaves as a cache miss and
falls through to the filesystem; consequently a zero-byte file that was read
(and cached) once and then deleted from disk yields absent on the second
call rather than the cached empty content. -/
theorem empty_cached_content_falls_through (now ttl : Int) (cs : CacheState)
    (disk : Disk) (v p : String)
    (hcached : (cacheGetStr now cs (cacheKeyFile v p)).1 = some "") :
    (disk v p = none →
        getFileContent now ttl cs disk v p
          = (none, (cacheGetStr now cs (cacheKeyFile v p)).2))
    ∧ (∀ c n, disk v p = some ⟨some c, n⟩ →
        (getFileContent now ttl cs disk v p).1 = some ⟨p, c, n, "java", v⟩)
    ∧ (∀ (cs₀ : CacheState) (disk₁ disk₂ : Disk) (now₁ now₂ : Int) (m : Nat),
        ((cacheGetStr now₁ cs₀ (cacheKeyFile v p)).1 = none
          ∨ (cacheGetStr now₁ cs₀ (cacheKeyFile v p)).1 = some "") →
        disk₁ v p = some ⟨some "", m⟩ →
        disk₂ v p = none →
        (getFileContent now₂ ttl (getFileContent now₁ ttl cs₀ disk₁ v p).2
            disk₂ v p).1 = none) := by
  obtain ⟨o, X, hget⟩ : ∃ o X, cacheGetStr now cs (cacheKeyFile v p) = (o, X) :=
    ⟨_, _, rfl⟩
  rw [hget] at hcached
  have ho : o = some "" := hcached
  subst ho
  have hgf : getFileContent now ttl cs disk v p
      = readFromDisk now ttl X disk v p (cacheKeyFile v p) := by
    rw [getFileContent, hget]
    rfl
  refine ⟨?_, ?_, ?_⟩
  · intro hd
    rw [hgf, readFromDisk.eq_def, hd, hget]
  · intro c n hd
    rw [hgf, readFromDisk.eq_def, hd]
  · intro cs₀ disk₁ disk₂ now₁ now₂ m hmiss₀ hd₁ hd₂
    obtain ⟨o₁, X₁, hget₁⟩ : ∃ o₁ X₁,
        cacheGetStr now₁ cs₀ (cacheKeyFile v p) = (o₁, X₁) := ⟨_, _, rfl⟩
    rw [hget₁] at hmiss₀
    have ho₁ : o₁ = none ∨ o₁ = some "" := hmiss₀
    have hfirst : getFileContent now₁ ttl cs₀ disk₁ v p
        = (some ⟨p, "", m, "java", v⟩,
            cacheSetStr now₁ X₁ (cacheKeyFile v p) "" (some ttl)) := by
      have hread : readFromDisk now₁ ttl X₁ disk₁ v p (cacheKeyFile v p)
          = (some ⟨p, "", m, "java", v⟩,
              cacheSetStr now₁ X₁ (cacheKeyFile v p) "" (some ttl)) := by
        rw [readFromDisk.eq_def, hd₁]
      rw [getFileContent, hget₁]
      rcases ho₁ with rfl | rfl
      · exact hread
      · exact hread
    rw [hfirst]
    obtain ⟨st', hst'⟩ := cacheGetStr_after_set now₁ now₂ X₁ (cacheKeyFile v p)
      "" (some ttl)
    cases hexp : entryExpired now₂ ⟨.str "", expiryOf now₁ (some ttl)⟩ with
    | true =>
      rw [hexp] at hst'
      simp only [if_pos] at hst'
      rw [getFileContent, hst']
      show (readFromDisk now₂ ttl st' disk₂ v p (cacheKeyFile v p)).1 = none
      rw [readFromDisk.eq_def, hd₂]
    | false =>
      rw [hexp] at hst'
      simp only [Bool.false_eq_true, if_false] at hst'
      rw [getFileContent, hst']
      show (readFromDisk now₂ ttl st' disk₂ v p (cacheKeyFile v p)).1 = none
      rw [readFromDisk.eq_def, hd₂]

/-- Witness for C10: concrete zero-byte read-then-delete sequence. -/
theorem empty_cached_content_falls_through_witness :
    (getFileContent 7 3600
        (getFileContent 0 3600 emptyCache (fun _ _ => some ⟨some "", 0⟩) "V" "Z.java").2
        (fun _ _ => none) "V" "Z.java").1 = none :=
  (empty_cached_content_falls_through 0 3600
      (cacheSetStr 0 emptyCache (cacheKeyFile "V" "Z.java") "" (some 3600))
      (fun _ _ => none) "V" "Z.java" rfl).2.2
    emptyCache (fun _ _ => some ⟨some "", 0⟩) (fun _ _ => none) 0 7 0
    (Or.inl rfl) rfl rfl

/-- The expiry sweep as the spec's words describe it: remove exactly the
entries whose expiry timestamp is defined and strictly less than the current
time.  Used only to compare against the implemented `purgeStore`. -/
def purgeStoreSpec (now : Int) (store : List (String × CacheEntry)) :
    List (String × CacheEntry) :=
  store.filter (fun kv =>
    match kv.2.expiresAt with
    | none => true
    | some x => decide (¬(x < now)))

/-- C7 as stated is false: an entry whose computed expiry timestamp is
exactly `0` (reachable via `set` at time 5 with `ttl = -5`, since
`Optional[int]` admits negative TTLs) has a defined expiry strictly less
than the current time 6, yet the sweep keeps it, because
`entry.expires_at and ...` treats the float `0.0` as falsy. -/
theorem cache_ttl_behavior_cex :
    (cacheSet 5 emptyCache "k" (.str "x") (some (-5))).store
        = [("k", ⟨.str "x", some 0⟩)]
    ∧ purgeStore 6 [("k", ⟨.str "x", some 0⟩)] = [("k", ⟨.str "x", some 0⟩)]
    ∧ purgeStoreSpec 6 [("k", ⟨.str "x", some 0⟩)] = []
    ∧ (some (0 : Int)).isSome = true ∧ (0 : Int) < 6 := by
  refine ⟨rfl, rfl, rfl, rfl, by decide⟩

/-- C7 (amended): a value set with `ttl = 1` is retrievable immediately and
absent strictly after its expiry time; a value set with no TTL is
retrievable at every later time; the sweep removes exactly those entries
whose expiry timestamp is defined, *nonzero*, and strictly less than the
current time (a zero timestamp is kept for ever, due to Python truthiness);
and the sweep runs on every `get` and `exists` call. -/
theorem cache_ttl_behavior (now now' : Int) (st : CacheState) (k : String)
    (v : CVal) (h0 : 0 ≤ now) :
    ((cacheGet now (cacheSet now st k v (some 1)) k).1 = some v)
    ∧ (now + 1 < now' → (cacheGet now' (cacheSet now st k v (some 1)) k).1 = none)
    ∧ (∀ t : Int, (cacheGet t (cacheSet now st k v none) k).1 = some v)
    ∧ (∀ (store : List (String × CacheEntry)) (kv : String × CacheEntry),
        kv ∈ purgeStore now store
          ↔ kv ∈ store ∧ ¬(∃ x, kv.2.expiresAt = some x ∧ x ≠ 0 ∧ x < now))
    ∧ (∀ (cs : CacheState) (key : String),
        (cacheGet now cs key).2.store = purgeStore now cs.store)
    ∧ (∀ (cs : CacheState) (key : String),
        (cacheExists now cs key).2.store = purgeStore now cs.store) := by
  have hlookup : ∀ (now₀ now₁ : Int) (ttl : Option Int),
      entryExpired now₁ ⟨v, expiryOf now₀ ttl⟩ = false →
      (cacheGet now₁ (cacheSet now₀ st k v ttl) k).1 = some v := by
    intro now₀ now₁ ttl hexp
    rw [cacheSet, cacheGet]
    have hp : purgeStore now₁
        ((k, (⟨v, expiryOf now₀ ttl⟩ : CacheEntry))
          :: st.store.filter (fun kv => decide (kv.1 ≠ k)))
        = (k, (⟨v, expiryOf now₀ ttl⟩ : CacheEntry))
          :: purgeStore now₁ (st.store.filter (fun kv => decide (kv.1 ≠ k))) := by
      rw [purgeStore, List.filter_cons]
      simp only [hexp]
      rfl
    simp only [hp]
    rw [lookupStore, if_pos rfl]
  refine ⟨?_, ?_, ?_, ?_, ?_, ?_⟩
  · apply hlookup
    rw [entryExpired, expiryOf]
    simp only [if_neg (by omega : ¬(1 : Int) = 0)]
    have : ¬(now + 1 < now) := by omega
    simp [this]
  · intro hlt
    rw [cacheSet, cacheGet]
    have hexp : entryExpired now' ⟨v, expiryOf now (some 1)⟩ = true := by
      rw [entryExpired, expiryOf]
      simp only [if_neg (by omega : ¬(1 : Int) = 0)]
      have h1 : now + 1 ≠ 0 := by omega
      simp [h1, hlt]
    have hp : purgeStore now'
        ((k, (⟨v, expiryOf now (some 1)⟩ : CacheEntry))
          :: st.store.filter (fun kv => decide (kv.1 ≠ k)))
        = purgeStore now' (st.store.filter (fun kv => decide (kv.1 ≠ k))) := by
      rw [purgeStore, List.filter_cons]
      simp only [hexp]
      rfl
    simp only [hp]
    rw [lookupStore_none_of_keys_ne _ k ?_]
    intro kv hkv
    have := (List.mem_filter.mp (mem_purgeStore hkv)).2
    simpa using this
  · intro t
    apply hlookup
    rw [entryExpired, expiryOf]
  · intro store kv
    rw [purgeStore, List.mem_filter]
    constructor
    · rintro ⟨hmem, hkeep⟩
      refine ⟨hmem, ?_⟩
      rintro ⟨x, hx, hx0, hxlt⟩
      rw [entryExpired, hx] at hkeep
      simp [hx0, hxlt] at hkeep
    · rintro ⟨hmem, hnex⟩
      refine ⟨hmem, ?_⟩
      rw [entryExpired]
      cases hx : kv.2.expiresAt with
      | none => rfl
      | some x =>
        by_cases hx0 : x = 0
        · simp [hx0]
        · by_cases hxlt : x < now
          · exact absurd ⟨x, hx, hx0, hxlt⟩ hnex
          · simp [hx0, hxlt]
  · intro cs key
    rw [cacheGet]
    cases lookupStore (purgeStore now cs.store) key <;> rfl
  · intro cs key
    rfl

/-- Witness for the amended C7 at time 0 with a concrete store. -/
theorem cache_ttl_behavior_witness :
    ((cacheGet 0 (cacheSet 0 emptyCache "k" (.str "a") (some 1)) "k").1
        = some (.str "a"))
    ∧ ((cacheGet 5 (cacheSet 0 emptyCache "k" (.str "a") (some 1)) "k").1 = none)
    ∧ ((cacheGet 99 (cacheSet 0 emptyCache "k" (.str "a") none) "k").1
        = some (.str "a")) :=
  ⟨(cache_ttl_behavior 0 5 emptyCache "k" (.str "a") (by omega)).1,
    (cache_ttl_behavior 0 5 emptyCache "k" (.str "a") (by omega)).2.1 (by omega),
    (cache_ttl_behavior 0 5 emptyCache "k" (.str "a") (by omega)).2.2.1 99⟩

/-- C8: `get` on a key the purged store does not resolve (missing or just
expired) increments `misses` and leaves `hits`; a successful retrieval
increments `hits` and leaves `misses`; the reported hit rate is
`hits / (hits + misses)`, `0` with no lookups and `3/4` after exactly 3 hits
and 1 miss. -/
theorem hit_rate_counting (now : Int) (cs : CacheState) (k : String) :
    ((cacheGet now cs k).1 = none →
        (cacheGet now cs k).2.misses = cs.misses + 1
        ∧ (cacheGet now cs k).2.hits = cs.hits)
    ∧ (∀ val, (cacheGet now cs k).1 = some val →
        (cacheGet now cs k).2.hits = cs.hits + 1
        ∧ (cacheGet now cs k).2.misses = cs.misses)
    ∧ (∀ st : CacheState, st.hits = 0 → st.misses = 0 → hitRate st = 0)
    ∧ (∀ st : CacheState, st.hits = 3 → st.misses = 1 → hitRate st = 3 / 4) := by
  refine ⟨?_, ?_, ?_, ?_⟩
  · intro hmiss
    rw [cacheGet] at hmiss ⊢
    cases hl : lookupStore (purgeStore now cs.store) k with
    | none => simp [hl]
    | some e => rw [hl] at hmiss; simp at hmiss
  · intro val hhit
    rw [cacheGet] at hhit ⊢
    cases hl : lookupStore (purgeStore now cs.store) k with
    | none => rw [hl] at hhit; simp at hhit
    | some e => simp [hl]
  · intro st h1 h2
    rw [hitRate, h1, h2]
    rfl
  · intro st h1 h2
    rw [hitRate, h1, h2]
    norm_num

/-- Witness for C8: running one set, three hits and one miss from the empty
cache yields the 3-hit 1-miss state, whose reported rate is `3/4`; the empty
cache reports `0`. -/
theorem hit_rate_counting_witness :
    hitRate ((cacheGet 0 ((cacheGet 0 ((cacheGet 0 ((cacheGet 0
          (cacheSet 0 emptyCache "k" (.str "a") none) "k").2) "k").2) "k").2)
        "nope").2) = 3 / 4
    ∧ hitRate emptyCache = 0 :=
  ⟨(hit_rate_counting 0 emptyCache "k").2.2.2 _ rfl rfl,
    (hit_rate_counting 0 emptyCache "k").2.2.1 emptyCache rfl rfl⟩

/-! ## Object-graph model of `get_json` / `set_json` deep copies

`cache.get_json` returns `copy.deepcopy(value)` and `cache.set_json` stores
`copy.deepcopy(value)`.  The point of those copies is aliasing: mutating the
structure a caller received (or handed in) must not change what the cache
holds.  To state that, JSON-shaped Python values are modelled as object
graphs in an explicit heap: cells are strings, numbers, lists of references
or dicts of named references; `deepcopy` copies the reachable structure into
fresh cells; in-place mutation overwrites one cell.  The denotation of a
root is the `Json` value obtained by dereferencing (with fuel, since the
reading recursion is bounded in depth). -/

inductive HCell where
  | str (s : String)
  | num (n : Int)
  | arr (elems : List Nat)
  | obj (fields : List (String × Nat))
deriving DecidableEq

/-- A heap of allocated cells with a fresh-address counter. -/
structure Heap where
  cells : List (Nat × HCell)
  next : Nat
deriving DecidableEq

def findCell : List (Nat × HCell) → Nat → Option HCell
  | [], _ => none
  | (b, c) :: rest, a => if b = a then some c else findCell rest a

def Heap.find (h : Heap) (a : Nat) : Option HCell :=
  findCell h.cells a

/-- Allocate a new cell at the fresh address. -/
def Heap.alloc (h : Heap) (c : HCell) : Heap × Nat :=
  (⟨(h.next, c) :: h.cells, h.next + 1⟩, h.next)

/-- In-place mutation of the object at address `a` (what Python code does to
a list or dict it holds a reference to). -/
def Heap.write (h : Heap) (a : Nat) (c : HCell) : Heap :=
  ⟨(a, c) :: h.cells, h.next⟩

/-- The references a cell holds. -/
def cellChildren : HCell → List Nat
  | .str _ => []
  | .num _ => []
  | .arr es => es
  | .obj fs => fs.map Prod.snd

/-- The same cell with its references replaced (same constructor, same
field names). -/
def rebuildCell : HCell → List Nat → HCell
  | .str s, _ => .str s
  | .num n, _ => .num n
  | .arr _, l => .arr l
  | .obj fs, l => .obj (List.zip (fs.map Prod.fst) l)

/-- Pure JSON values, the denotations of heap roots. -/
inductive Json where
  | str (s : String)
  | num (n : Int)
  | arr (es : List Json)
  | obj (fs : List (String × Json))

/-- A cell together with the denotations of its references. -/
def rebuildJson : HCell → List Json → Json
  | .str s, _ => .str s
  | .num n, _ => .num n
  | .arr _, l => .arr l
  | .obj fs, l => .obj (List.zip (fs.map Prod.fst) l)

/-- Model of `copy.deepcopy` over a list of roots: copy each root's cell after
copying its references, allocating only fresh cells; `none` only on a
dangling reference or fuel exhaustion. -/
def dcMany : Nat → Heap → List Nat → Option (Heap × List Nat)
  | 0, _, _ => none
  | _ + 1, h, [] => some (h, [])
  | fuel + 1, h, a :: rest =>
    match h.find a with
    | none => none
    | some c =>
      match dcMany fuel h (cellChildren c) with
      | none => none
      | some (h₁, kids) =>
        match dcMany fuel (h₁.alloc (rebuildCell c kids)).1 rest with
        | none => none
        | some (h₂, rest') => some (h₂, (h₁.alloc (rebuildCell c kids)).2 :: rest')

/-- Dereference a list of roots into their `Json` denotations. -/
def readMany : Nat → Heap → List Nat → Option (List Json)
  | 0, _, _ => none
  | _ + 1, _, [] => some []
  | fuel + 1, h, a :: rest =>
    match h.find a with
    | none => none
    | some c =>
      match readMany fuel h (cellChildren c) with
      | none => none
      | some kids =>
        match readMany fuel h rest with
        | none => none
        | some rs => some (rebuildJson c kids :: rs)

/-- Model of `copy.deepcopy` of one root, as performed by `get_json` on the stored
value and by `set_json` on its argument. -/
def deepcopy (fuel : Nat) (h : Heap) (r : Nat) : Option (Heap × Nat) :=
  match dcMany fuel h [r] with
  | some (h', [r']) => some (h', r')
  | _ => none

/-- The `Json` value a root denotes. -/
def readJson (fuel : Nat) (h : Heap) (r : Nat) : Option Json :=
  match readMany fuel h [r] with
  | some [j] => some j
  | _ => none

/-- Well-formed heap: every allocated cell sits below the fresh counter and
references only addresses below it. -/
def WF (h : Heap) : Prop :=
  ∀ a c, h.find a = some c → a < h.next ∧ ∀ b ∈ cellChildren c, b < h.next

theorem mem_of_findCell :
    ∀ (l : List (Nat × HCell)) (a : Nat) (c : HCell),
      findCell l a = some c → (a, c) ∈ l := by
  intro l
  induction l with
  | nil => intro a c h; cases h
  | cons kv rest ih =>
    intro a c h
    rcases kv with ⟨b, c'⟩
    rw [findCell] at h
    by_cases hb : b = a
    · rw [if_pos hb] at h
      cases h
      subst hb
      exact List.mem_cons_self _ _
    · rw [if_neg hb] at h
      exact List.mem_cons_of_mem _ (ih a c h)

/-- Checkable sufficient condition for `WF`. -/
theorem WF_of_all (h : Heap)
    (hall : h.cells.all
      (fun kv => decide (kv.1 < h.next)
        && (cellChildren kv.2).all (fun b => decide (b < h.next))) = true) :
    WF h := by
  intro a c hfind
  have hmem : (a, c) ∈ h.cells := mem_of_findCell h.cells a c hfind
  have := List.all_eq_true.mp hall (a, c) hmem
  simp only [Bool.and_eq_true, decide_eq_true_eq, List.all_eq_true] at this
  exact ⟨this.1, fun b hb => by simpa using this.2 b hb⟩

theorem find_write_self (h : Heap) (b : Nat) (c : HCell) :
    (h.write b c).find b = some c := by
  rw [Heap.write, Heap.find, findCell, if_pos rfl]

theorem find_write_ne (h : Heap) (b a : Nat) (c : HCell) (hne : b ≠ a) :
    (h.write b c).find a = h.find a := by
  rw [Heap.write, Heap.find, findCell, if_neg hne]
  rfl

theorem find_alloc_self (h : Heap) (c : HCell) :
    (h.alloc c).1.find h.next = some c := by
  rw [Heap.alloc, Heap.find, findCell, if_pos rfl]

theorem find_alloc_ne (h : Heap) (c : HCell) (a : Nat) (hne : h.next ≠ a) :
    (h.alloc c).1.find a = h.find a := by
  rw [Heap.alloc, Heap.find, findCell, if_neg hne]
  rfl

/-- Reading depends only on the cells at the addresses a closed region
holds: two heaps that agree on a region `S` closed under references give
every root in `S` the same denotations. -/
theorem readMany_frame (S : Nat → Prop) (h h₂ : Heap)
    (hagree : ∀ b, S b → h₂.find b = h.find b)
    (hclosed : ∀ b, S b → ∀ c, h.find b = some c → ∀ x ∈ cellChildren c, S x) :
    ∀ (f : Nat) (roots : List Nat), (∀ a ∈ roots, S a) →
      readMany f h₂ roots = readMany f h roots := by
  intro f
  induction f with
  | zero => intro roots _; rfl
  | succ f ih =>
    intro roots hroots
    cases roots with
    | nil => rfl
    | cons a rest =>
      have ha : S a := hroots a (List.mem_cons_self a rest)
      rw [readMany, readMany, hagree a ha]
      cases hf : h.find a with
      | none => rfl
      | some c =>
        have h1 := ih (cellChildren c) (fun x hx => hclosed a ha c hf x hx)
        have h2 := ih rest (fun x hx => hroots x (List.mem_cons_of_mem a hx))
        simp [h1, h2]

theorem alloc_next (h : Heap) (c : HCell) : (h.alloc c).1.next = h.next + 1 := rfl

theorem cellChildren_rebuildCell (c : HCell) (l : List Nat)
    (hlen : l.length = (cellChildren c).length) :
    cellChildren (rebuildCell c l) = l := by
  cases c with
  | str s =>
    rw [cellChildren] at hlen
    rw [rebuildCell, cellChildren]
    exact (List.length_eq_zero.mp hlen).symm
  | num n =>
    rw [cellChildren] at hlen
    rw [rebuildCell, cellChildren]
    exact (List.length_eq_zero.mp hlen).symm
  | arr es => rfl
  | obj fs =>
    rw [cellChildren] at hlen
    rw [rebuildCell, cellChildren]
    apply List.map_snd_zip
    simp [hlen]

theorem rebuildJson_rebuildCell (c : HCell) (l : List Nat)
    (hlen : l.length = (cellChildren c).length) (vs : List Json) :
    rebuildJson (rebuildCell c l) vs = rebuildJson c vs := by
  cases c with
  | str s => rfl
  | num n => rfl
  | arr es => rfl
  | obj fs =>
    rw [cellChildren] at hlen
    rw [rebuildCell, rebuildJson, rebuildJson]
    congr 1
    congr 1
    apply List.map_fst_zip
    simp [hlen]

/-- What one deep-copy run guarantees: the heap only grows; cells below the
old fresh boundary are untouched; the returned roots are exactly as many as
the inputs and live entirely in the fresh region; well-formedness is
preserved; and every cell allocated by the copy references only the fresh
region. -/
theorem dcMany_spec :
    ∀ (fuel : Nat) (h : Heap) (roots : List Nat) (h' : Heap) (roots' : List Nat),
      WF h → dcMany fuel h roots = some (h', roots') →
      h.next ≤ h'.next
      ∧ (∀ b, b < h.next → h'.find b = h.find b)
      ∧ roots'.length = roots.length
      ∧ (∀ a' ∈ roots', h.next ≤ a' ∧ a' < h'.next)
      ∧ WF h'
      ∧ (∀ b c', h.next ≤ b → h'.find b = some c' →
          ∀ x ∈ cellChildren c', h.next ≤ x) := by
  intro fuel
  induction fuel with
  | zero => intro h roots h' roots' _ hcopy; cases hcopy
  | succ fuel ih =>
    intro h roots h' roots' hwf hcopy
    cases roots with
    | nil =>
      rw [dcMany] at hcopy
      cases hcopy
      refine ⟨le_refl _, fun b _ => rfl, rfl, by simp, hwf, ?_⟩
      intro b c' hb hf
      exact absurd (hwf b c' hf).1 (by omega)
    | cons a rest =>
      rw [dcMany] at hcopy
      cases hfa : h.find a with
      | none => rw [hfa] at hcopy; cases hcopy
      | some c =>
        rw [hfa] at hcopy
        have hcopy₁ : (match dcMany fuel h (cellChildren c) with
            | none => none
            | some (h₁, kids) =>
              match dcMany fuel (h₁.alloc (rebuildCell c kids)).1 rest with
              | none => none
              | some (h₂, rest') =>
                  some (h₂, (h₁.alloc (rebuildCell c kids)).2 :: rest'))
            = some (h', roots') := hcopy
        clear hcopy
        cases hkids : dcMany fuel h (cellChildren c) with
        | none => rw [hkids] at hcopy₁; cases hcopy₁
        | some p₁ =>
          rcases p₁ with ⟨h₁, kids⟩
          rw [hkids] at hcopy₁
          have hcopy₂ : (match dcMany fuel (h₁.alloc (rebuildCell c kids)).1 rest with
              | none => none
              | some (h₂, rest') =>
                  some (h₂, (h₁.alloc (rebuildCell c kids)).2 :: rest'))
              = some (h', roots') := hcopy₁
          clear hcopy₁
          cases hrest : dcMany fuel (h₁.alloc (rebuildCell c kids)).1 rest with
          | none => rw [hrest] at hcopy₂; cases hcopy₂
          | some p₂ =>
            rcases p₂ with ⟨h₂, rest'⟩
            rw [hrest] at hcopy₂
            cases hcopy₂
            obtain ⟨hn₁, hpres₁, hlen₁, hbounds₁, hwf₁, hnew₁⟩ :=
              ih h (cellChildren c) h₁ kids hwf hkids
            have hchild : cellChildren (rebuildCell c kids) = kids :=
              cellChildren_rebuildCell c kids hlen₁
            have hwf₁' : WF (h₁.alloc (rebuildCell c kids)).1 := by
              intro b cb hfb
              by_cases hb : h₁.next = b
              · subst hb
                rw [find_alloc_self] at hfb
                cases hfb
                rw [alloc_next]
                refine ⟨by omega, ?_⟩
                rw [hchild]
                intro x hx
                have := (hbounds₁ x hx).2
                omega
              · rw [find_alloc_ne _ _ _ hb] at hfb
                have := hwf₁ b cb hfb
                rw [alloc_next]
                exact ⟨by omega, fun x hx => by have := this.2 x hx; omega⟩
            obtain ⟨hn₂, hpres₂, hlen₂, hbounds₂, hwf₂, hnew₂⟩ :=
              ih _ rest h' rest' hwf₁' hrest
            rw [alloc_next] at hn₂
            refine ⟨by omega, ?_, ?_, ?_, hwf₂, ?_⟩
            · intro b hb
              rw [hpres₂ b (by rw [alloc_next]; omega),
                find_alloc_ne _ _ _ (by omega), hpres₁ b hb]
            · simp [hlen₂]
            · intro a' ha'
              rcases List.mem_cons.mp ha' with rfl | hmem
              · have h2eq : (h₁.alloc (rebuildCell c kids)).2 = h₁.next := rfl
                rw [h2eq]
                exact ⟨hn₁, by omega⟩
              · have := hbounds₂ a' hmem
                rw [alloc_next] at this
                exact ⟨by omega, this.2⟩
            · intro b c' hb hfb
              by_cases hbig : h₁.next + 1 ≤ b
              · intro x hx
                have := hnew₂ b c' (by rw [alloc_next]; omega) hfb x hx
                rw [alloc_next] at this
                omega
              · have hb' : b < (h₁.alloc (rebuildCell c kids)).1.next := by
                  rw [alloc_next]; omega
                rw [hpres₂ b hb'] at hfb
                by_cases hbeq : h₁.next = b
                · subst hbeq
                  rw [find_alloc_self] at hfb
                  cases hfb
                  rw [hchild]
                  intro x hx
                  exact (hbounds₁ x hx).1
                · rw [find_alloc_ne _ _ _ hbeq] at hfb
                  exact hnew₁ b c' hb hfb

/-- Allocating a rebuilt cell whose references point into a well-formed heap
preserves well-formedness. -/
theorem WF_alloc_rebuilt (h₁ : Heap) (c : HCell) (kids : List Nat)
    (hwf₁ : WF h₁) (hlen : kids.length = (cellChildren c).length)
    (hb : ∀ x ∈ kids, x < h₁.next) :
    WF (h₁.alloc (rebuildCell c kids)).1 := by
  intro b cb hfb
  by_cases hbe : h₁.next = b
  · subst hbe
    rw [find_alloc_self] at hfb
    cases hfb
    rw [alloc_next, cellChildren_rebuildCell c kids hlen]
    exact ⟨by omega, fun x hx => by have := hb x hx; omega⟩
  · rw [find_alloc_ne _ _ _ hbe] at hfb
    have := hwf₁ b cb hfb
    rw [alloc_next]
    exact ⟨by omega, fun x hx => by have := this.2 x hx; omega⟩

/-- A deep copy denotes the same `Json` values as its sources, at every read
depth. -/
theorem dcMany_read :
    ∀ (fuel : Nat) (h : Heap) (roots : List Nat) (h' : Heap) (roots' : List Nat),
      WF h → (∀ a ∈ roots, a < h.next) →
      dcMany fuel h roots = some (h', roots') →
      ∀ f, readMany f h' roots' = readMany f h roots := by
  intro fuel
  induction fuel with
  | zero => intro h roots h' roots' _ _ hcopy; cases hcopy
  | succ fuel ih =>
    intro h roots h' roots' hwf hroots hcopy f
    cases roots with
    | nil =>
      rw [dcMany] at hcopy
      cases hcopy
      rfl
    | cons a rest =>
      rw [dcMany] at hcopy
      cases hfa : h.find a with
      | none => rw [hfa] at hcopy; cases hcopy
      | some c =>
        rw [hfa] at hcopy
        have hcopy₁ : (match dcMany fuel h (cellChildren c) with
            | none => none
            | some (h₁, kids) =>
              match dcMany fuel (h₁.alloc (rebuildCell c kids)).1 rest with
              | none => none
              | some (h₂, rest') =>
                  some (h₂, (h₁.alloc (rebuildCell c kids)).2 :: rest'))
            = some (h', roots') := hcopy
        clear hcopy
        cases hkids : dcMany fuel h (cellChildren c) with
        | none => rw [hkids] at hcopy₁; cases hcopy₁
        | some p₁ =>
          rcases p₁ with ⟨h₁, kids⟩
          rw [hkids] at hcopy₁
          have hcopy₂ : (match dcMany fuel (h₁.alloc (rebuildCell c kids)).1 rest with
              | none => none
              | some (h₂, rest') =>
                  some (h₂, (h₁.alloc (rebuildCell c kids)).2 :: rest'))
              = some (h', roots') := hcopy₁
          clear hcopy₁
          cases hrest : dcMany fuel (h₁.alloc (rebuildCell c kids)).1 rest with
          | none => rw [hrest] at hcopy₂; cases hcopy₂
          | some p₂ =>
            rcases p₂ with ⟨h₂, rest'⟩
            rw [hrest] at hcopy₂
            cases hcopy₂
            obtain ⟨hn₁, hpres₁, hlen₁, hbounds₁, hwf₁, hnew₁⟩ :=
              dcMany_spec fuel h (cellChildren c) h₁ kids hwf hkids
            have hwf₁' : WF (h₁.alloc (rebuildCell c kids)).1 :=
              WF_alloc_rebuilt h₁ c kids hwf₁ hlen₁ (fun x hx => (hbounds₁ x hx).2)
            obtain ⟨hn₂, hpres₂, hlen₂, hbounds₂, hwf₂, hnew₂⟩ :=
              dcMany_spec fuel _ rest h' rest' hwf₁' hrest
            rw [alloc_next] at hn₂
            have ha : a < h.next := hroots a (List.mem_cons_self a rest)
            have hrestlt : ∀ x ∈ rest, x < h.next :=
              fun x hx => hroots x (List.mem_cons_of_mem a hx)
            cases f with
            | zero => rfl
            | succ f =>
              have hfind' : h'.find (h₁.alloc (rebuildCell c kids)).2
                  = some (rebuildCell c kids) := by
                have h2eq : (h₁.alloc (rebuildCell c kids)).2 = h₁.next := rfl
                rw [h2eq, hpres₂ h₁.next (by rw [alloc_next]; omega), find_alloc_self]
              have hLHS : readMany (f + 1) h'
                  ((h₁.alloc (rebuildCell c kids)).2 :: rest')
                  = match readMany f h' kids with
                    | none => none
                    | some kidsv =>
                      match readMany f h' rest' with
                      | none => none
                      | some restv => some (rebuildJson c kidsv :: restv) := by
                rw [readMany, hfind']
                show (match readMany f h' (cellChildren (rebuildCell c kids)) with
                    | none => none
                    | some kidsv =>
                      match readMany f h' rest' with
                      | none => none
                      | some restv =>
                          some (rebuildJson (rebuildCell c kids) kidsv :: restv))
                    = _
                rw [cellChildren_rebuildCell c kids hlen₁]
                simp only [rebuildJson_rebuildCell c kids hlen₁]
              have hRHS : readMany (f + 1) h (a :: rest)
                  = match readMany f h (cellChildren c) with
                    | none => none
                    | some kidsv =>
                      match readMany f h rest with
                      | none => none
                      | some restv => some (rebuildJson c kidsv :: restv) := by
                rw [readMany, hfa]
              have hkidsframe : readMany f h' kids = readMany f h₁ kids := by
                apply readMany_frame (fun x => x < h₁.next) h₁ h'
                · intro b hb
                  rw [hpres₂ b (by rw [alloc_next]; omega),
                    find_alloc_ne _ _ _ (by omega)]
                · intro b _ cb hfb
                  exact fun x hx => (hwf₁ b cb hfb).2 x hx
                · exact fun x hx => (hbounds₁ x hx).2
              have hkidscopy := ih h (cellChildren c) h₁ kids hwf
                (fun x hx => (hwf a c hfa).2 x hx) hkids f
              have hrestcopy := ih _ rest h' rest' hwf₁'
                (fun x hx => by
                  have := hrestlt x hx
                  rw [alloc_next]
                  omega) hrest f
              have hrestframe : readMany f (h₁.alloc (rebuildCell c kids)).1 rest
                  = readMany f h rest := by
                apply readMany_frame (fun x => x < h.next) h _
                · intro b hb
                  rw [find_alloc_ne _ _ _ (by omega), hpres₁ b hb]
                · intro b _ cb hfb
                  exact fun x hx => (hwf b cb hfb).2 x hx
                · exact hrestlt
              have hkc : readMany f h' kids = readMany f h (cellChildren c) :=
                hkidsframe.trans hkidscopy
              have hrc : readMany f h' rest' = readMany f h rest :=
                hrestcopy.trans hrestframe
              rw [hLHS, hRHS, hkc, hrc]

/-- C9: the value returned by a JSON `get` is a deep copy independent of the
stored entry.  The copy lives entirely in fresh cells; it denotes the same
`Json` value as the stored root; mutating any cell of the copied region (in
particular anything reachable from the returned root) leaves the stored
root's denotation — and hence what every subsequent `get` for the key
returns — unchanged; and symmetrically for `set_json`, which stores a deep
copy of the caller's value: mutating any pre-existing cell (the caller's
structure) leaves the stored copy's denotation unchanged. -/
theorem json_deepcopy_isolation (fuel : Nat) (h h' : Heap) (r r' : Nat)
    (hwf : WF h) (hcopy : deepcopy fuel h r = some (h', r')) :
    h.next ≤ r'
    ∧ (∀ f, readJson f h' r' = readJson f h r)
    ∧ (∀ (b : Nat) (c : HCell) (f : Nat), h.next ≤ b →
        readJson f (h'.write b c) r = readJson f h r)
    ∧ (∀ (b : Nat) (c : HCell) (f : Nat), b < h.next →
        readJson f (h'.write b c) r' = readJson f h' r') := by
  have hdc : dcMany fuel h [r] = some (h', [r']) := by
    rw [deepcopy] at hcopy
    cases hd : dcMany fuel h [r] with
    | none => rw [hd] at hcopy; cases hcopy
    | some p =>
      rcases p with ⟨h'', rs⟩
      rw [hd] at hcopy
      cases rs with
      | nil => cases hcopy
      | cons x rs' =>
        cases rs' with
        | nil => cases hcopy; rfl
        | cons y t => cases hcopy
  have hr : r < h.next := by
    cases fuel with
    | zero => cases hdc
    | succ g =>
      rw [dcMany] at hdc
      cases hfr : h.find r with
      | none => rw [hfr] at hdc; cases hdc
      | some c => exact (hwf r c hfr).1
  obtain ⟨hn, hpres, _, hbounds, hwf', hnew⟩ :=
    dcMany_spec fuel h [r] h' [r'] hwf hdc
  have hr' : h.next ≤ r' ∧ r' < h'.next :=
    hbounds r' (List.mem_singleton.mpr rfl)
  have hread : ∀ f, readMany f h' [r'] = readMany f h [r] :=
    dcMany_read fuel h [r] h' [r'] hwf
      (fun x hx => by rcases List.mem_singleton.mp hx with rfl; exact hr) hdc
  refine ⟨hr'.1, ?_, ?_, ?_⟩
  · intro f
    rw [readJson, readJson, hread f]
  · intro b c f hb
    have hframe : readMany f (h'.write b c) [r] = readMany f h [r] := by
      apply readMany_frame (fun x => x < h.next) h (h'.write b c)
      · intro x hx
        rw [find_write_ne _ _ _ _ (by omega), hpres x hx]
      · intro x _ cx hfx
        exact fun y hy => (hwf x cx hfx).2 y hy
      · intro x hx
        rcases List.mem_singleton.mp hx with rfl
        exact hr
    rw [readJson, readJson, hframe]
  · intro b c f hb
    have hframe : readMany f (h'.write b c) [r'] = readMany f h' [r'] := by
      apply readMany_frame (fun x => h.next ≤ x) h' (h'.write b c)
      · intro x hx
        rw [find_write_ne _ _ _ _ (by omega)]
      · intro x hx cx hfx
        exact fun y hy => hnew x cx hx hfx y hy
      · intro x hx
        rcases List.mem_singleton.mp hx with rfl
        exact hr'.1
    rw [readJson, readJson, hframe]

/-- A tiny concrete object graph: the stored value is the one-element list
`["hello"]`, as a cell at address 1 referencing the string cell at 0. -/
def demoHeap : Heap := ⟨[(1, .arr [0]), (0, .str "hello")], 2⟩

/-- The heap after `deepcopy` of root 1: the copy occupies the fresh cells 2
and 3. -/
def demoHeapCopy : Heap :=
  ⟨[(3, .arr [2]), (2, .str "hello"), (1, .arr [0]), (0, .str "hello")], 4⟩

/-- Witness for C9 on `demoHeap`: the returned copy root 3 is fresh and
denotes the stored value; overwriting the copy's list cell leaves the stored
root's denotation intact, and overwriting an old cell leaves the copy's
denotation intact. -/
theorem json_deepcopy_isolation_witness :
    demoHeap.next ≤ 3
    ∧ readJson 3 demoHeapCopy 3 = readJson 3 demoHeap 1
    ∧ readJson 3 (demoHeapCopy.write 3 (.arr [])) 1 = readJson 3 demoHeap 1
    ∧ readJson 3 (demoHeapCopy.write 0 (.num 9)) 3 = readJson 3 demoHeapCopy 3 :=
  have h := json_deepcopy_isolation 5 demoHeap demoHeapCopy 1 3
    (WF_of_all demoHeap (by decide)) rfl
  ⟨h.1, h.2.1 3, h.2.2.1 3 (.arr []) 3 (by decide), h.2.2.2 0 (.num 9) 3 (by decide)⟩

end Msrc
